import Mathlib

/-!
Verification of the chunking and retrieval engine of the
`retrieval_comparision` repository (`backend/app/chunking.py` and
`backend/app/retrieval.py`).

Texts are modelled as `List Char` (`Str`). Python's string primitives
(`strip`, `split`, `join`, `lower`, whitespace tokenisation) are embedded
as executable Lean functions. Loops of the source are embedded either as
structural recursions or as fuel-indexed recursions whose fuel provably
suffices on every reachable input, so that every definition evaluates by
kernel reduction. Python's `list.sort(key=..., reverse=True)` (a stable
sort) is embedded as `List.insertionSort` with the corresponding total
preorder, which is extensionally the unique stable sort for that order.
-/

/-- Texts are lists of characters. -/
abbrev Str := List Char

/-- Python whitespace characters, as tested by `str.strip`, `str.split`
and the regex class `\s` (ASCII range). -/
def pyIsSpace (c : Char) : Bool :=
  c = ' ' || c = '\t' || c = '\n' || c = '\r' || c = Char.ofNat 11 || c = Char.ofNat 12

/-- Python `str.strip()`: remove leading and trailing whitespace. -/
def pyStrip (l : Str) : Str :=
  ((l.dropWhile pyIsSpace).reverse.dropWhile pyIsSpace).reverse

/-- Python `sep.join(parts)`. -/
def pyJoin (sep : Str) : List Str → Str
  | [] => []
  | [p] => p
  | p :: q :: ps => p ++ sep ++ pyJoin sep (q :: ps)

/-- Index of the leftmost occurrence of `pat` in `l` (the scan position of
Python's `str.find` / `str.split` / `in`). -/
def findSub (pat : Str) : Str → Option Nat
  | [] => if pat.isPrefixOf ([] : Str) then some 0 else none
  | c :: rest =>
    if pat.isPrefixOf (c :: rest) then some 0
    else (findSub pat rest).map (· + 1)

/-- Fuel-indexed worker for Python `str.split(sep)`; one unit of fuel per
emitted separator occurrence, and every occurrence consumes at least one
character, so `l.length` fuel always suffices. -/
def pySplitGo (sep : Str) : Nat → Str → List Str
  | 0, l => [l]
  | fuel + 1, l =>
    match findSub sep l with
    | none => [l]
    | some i => l.take i :: pySplitGo sep fuel (l.drop (i + sep.length))

/-- Python `str.split(sep)` for a non-empty separator: split on
non-overlapping leftmost occurrences, keeping empty parts. -/
def pySplit (sep : Str) (l : Str) : List Str :=
  if sep.isEmpty then [l] else pySplitGo sep l.length l

/-- Python `str.lower()` (ASCII case folding). -/
def pyToLower (l : Str) : Str := l.map Char.toLower

/-- Fuel-indexed worker for no-argument `str.split()`: each step removes
leading whitespace and takes one non-empty word. -/
def pySplitWsGo : Nat → Str → List Str
  | 0, _ => []
  | fuel + 1, l =>
    let l' := l.dropWhile pyIsSpace
    if l'.isEmpty then []
    else
      (l'.takeWhile (fun c => !pyIsSpace c)) ::
        pySplitWsGo fuel (l'.dropWhile (fun c => !pyIsSpace c))

/-- Python `text.lower().split()`: lowercase then split on whitespace
runs, dropping empty tokens. Used by every lexical scorer in
`retrieval.py`. -/
def pyWords (l : Str) : List Str := pySplitWsGo l.length (pyToLower l)

/-- Python `set(text.lower().split())`. -/
def wordSet (l : Str) : Finset Str := (pyWords l).toFinset

/-- `len(query_words.intersection(chunk_words))`: the word-overlap score
used by `retrieve_top_k`, `retrieve_mmr` and `retrieve_parent_document`. -/
def overlapScore (query chunk : Str) : Nat :=
  ((wordSet query) ∩ (wordSet chunk)).card

/-- Python slicing `xs[:k]` for an arbitrary integer `k`. -/
def pythonTake (k : Int) (xs : List α) : List α :=
  if k < 0 then xs.take (xs.length - k.natAbs) else xs.take k.toNat

/-- The fixed context separator `"\n---\n"` of `retrieval.py`. -/
def ctxSep : Str := ['\n', '-', '-', '-', '\n']

/-- Characters that the chunking strategies may drop at chunk boundaries:
whitespace (trimming and whitespace separators), `'.'` (the sentence
separator `". "`), and `'-'` (the document delimiter `"---"`). -/
def keepChar (c : Char) : Bool := !(pyIsSpace c || c = '.' || c = '-')

/-- The content of a text modulo separator characters: what must be
preserved by chunking (claim C4). -/
def filterKeep (l : Str) : Str := l.filter keepChar

/-! ### Fixed-size chunking (`chunk_fixed_size`) -/

/-- The window loop of `chunk_fixed_size`, fuel-indexed. At index `i` the
loop emits `text[i : i + chunk_size]` and advances by
`chunk_size - overlap`; for a positive stride, `text.length + 1` fuel
always suffices. -/
def chunkFixedGo (text : Str) (chunkSize overlap : Nat) : Nat → Nat → List Str
  | 0, _ => []
  | fuel + 1, i =>
    if i < text.length then
      ((text.drop i).take chunkSize) :: chunkFixedGo text chunkSize overlap fuel (i + (chunkSize - overlap))
    else []

/-- `chunk_fixed_size(text, chunk_size, overlap)`: sliding windows, then
drop chunks that are empty after stripping. Faithful to the source for
`overlap < chunk_size`; for `overlap >= chunk_size` the source loop never
terminates, which is analysed through `fixedLoopIndex` below. -/
def chunk_fixed_size (text : Str) (chunkSize overlap : Nat) : List Str :=
  (chunkFixedGo text chunkSize overlap (text.length + 1) 0).filter
    (fun c => !(pyStrip c).isEmpty)

/-- The loop index of `chunk_fixed_size` after `n` iterations of
`i += chunk_size - overlap`, over the integers (Python integers do not
truncate): `i₀ = 0`, `iₙ₊₁ = iₙ + (chunk_size - overlap)`. -/
def fixedLoopIndex (chunkSize overlap : Int) : Nat → Int
  | 0 => 0
  | n + 1 => fixedLoopIndex chunkSize overlap n + (chunkSize - overlap)

/-! ### Recursive chunking (`chunk_recursive`) -/

/-- The hierarchical separators of `chunk_recursive`:
`['\n\n', '\n', '. ', ' ']`. -/
def recursiveSeparators : List Str :=
  [['\n', '\n'], ['\n'], ['.', ' '], [' ']]

/-- The accumulation loop of `recursive_split`: greedily grow
`current_chunk` with `separator`-joined pieces while the limit allows,
emitting the running chunk (in order) whenever adding the next piece would
exceed `max_chunk_size`; the trailing chunk is emitted at the end. What
the source does with each emitted chunk (append stripped, or recurse when
oversize) is applied afterwards by `recProcessApply`. -/
def recSegments (maxCS : Nat) (sep : Str) : List Str → Str → List Str
  | [], current => if current.isEmpty then [] else [current]
  | piece :: more, current =>
    if !current.isEmpty && decide (maxCS < current.length + sep.length + piece.length) then
      current :: recSegments maxCS sep more piece
    else
      recSegments maxCS sep more (if current.isEmpty then piece else current ++ sep ++ piece)

/-- The flush action of `recursive_split` applied to every emitted chunk:
an oversize chunk is split recursively with the remaining separators,
otherwise it is stripped and kept. -/
def recProcessApply (recurse : Str → List Str) (maxCS : Nat) (segs : List Str) : List Str :=
  segs.flatMap (fun c => if maxCS < c.length then recurse c else [pyStrip c])

/-- `recursive_split(text, separators)`, fuel-indexed; the recursion depth
is bounded by the separator list, so `separators.length + 1` fuel always
suffices. Base case: when the separators are exhausted or the text already
fits, return the text itself if non-blank. Otherwise split by the first
separator, accumulate greedily, recurse into oversize chunks with the
remaining separators, and drop blank chunks. -/
def recGo (maxCS : Nat) : Nat → List Str → Str → List Str
  | 0, _, _ => []
  | fuel + 1, seps, text =>
    match seps with
    | [] => if (pyStrip text).isEmpty then [] else [text]
    | sep :: rest =>
      if text.length ≤ maxCS then
        (if (pyStrip text).isEmpty then [] else [text])
      else
        (recProcessApply (fun t => recGo maxCS fuel rest t) maxCS
            (recSegments maxCS sep (pySplit sep text) [])).filter
          (fun c => !(pyStrip c).isEmpty)

/-- `chunk_recursive(text, max_chunk_size)`. -/
def chunk_recursive (text : Str) (maxCS : Nat) : List Str :=
  recGo maxCS (recursiveSeparators.length + 1) recursiveSeparators text

/-- `chunk_agentic(text)`: the agentic stub delegates to recursive
chunking with the default `max_chunk_size = 1000`. -/
def chunk_agentic (text : Str) : List Str := chunk_recursive text 1000

/-! ### Document-based chunking (`chunk_document_based`)

The markdown-header branch uses the regex `\n#{1,6}\s+.+\n` (searched with
`re.search`, split with a capturing `re.split`, re-tested with
`re.match`). The pattern is embedded by a direct backtracking matcher:
after the literal newline, `#{1,6}` greedily tries the longest available
hash run (at most 6), `\s+` greedily tries the longest whitespace run and
backtracks one character at a time, and `.+\n` is forced to the longest
newline-free run followed by a newline. -/

/-- Greedy match of `\s+.+\n` at the front of `s`, trying the whitespace
length `w` downwards; returns the total consumed length. -/
def tryWsLen (s : Str) : Nat → Option Nat
  | 0 => none
  | w + 1 =>
    let t := s.drop (w + 1)
    let d := (t.takeWhile (fun c => !(c = '\n'))).length
    if 1 ≤ d && (t.getD d ' ') = '\n' then some ((w + 1) + d + 1)
    else tryWsLen s w

/-- Greedy match of `#{1,6}\s+.+\n` at the front of `rest`, trying the
hash count `j` downwards from `min (hash run) 6`. -/
def tryHashes (rest : Str) : Nat → Option Nat
  | 0 => none
  | j + 1 =>
    match tryWsLen (rest.drop (j + 1)) ((rest.drop (j + 1)).takeWhile pyIsSpace).length with
    | some m => some (1 + (j + 1) + m)
    | none => tryHashes rest j

/-- Length of the match of `\n#{1,6}\s+.+\n` at the front of `l`
(Python `re.match`), if any. -/
def headerMatchLen : Str → Option Nat
  | '\n' :: rest =>
    tryHashes rest (min ((rest.takeWhile (fun c => c = '#')).length) 6)
  | _ => none

/-- Leftmost match `(start, length)` of the header pattern in `l`
(Python `re.search`). -/
def findHeader : Str → Option (Nat × Nat)
  | [] => none
  | c :: rest =>
    match headerMatchLen (c :: rest) with
    | some L => some (0, L)
    | none =>
      match findHeader rest with
      | some p => some (p.1 + 1, p.2)
      | none => none

/-- Fuel-indexed worker for `re.split(r'(\n#{1,6}\s+.+\n)', text)`: the
parts between the matches and the (captured) matches themselves, in order.
Every match consumes at least one character, so `l.length` fuel always
suffices. -/
def splitHeadersGo : Nat → Str → List Str
  | 0, l => [l]
  | fuel + 1, l =>
    match findHeader l with
    | none => [l]
    | some (i, L) =>
      l.take i :: (l.drop i).take L :: splitHeadersGo fuel (l.drop (i + L))

/-- `re.split` with the capturing header pattern. -/
def splitHeaders (l : Str) : List Str := splitHeadersGo l.length l

/-- The grouping loop of the header branch: a header part starts a new
chunk (flushing the stripped running chunk), any other part is appended to
the running chunk; the trailing chunk is flushed at the end. -/
def headerGroup : List Str → Str → List Str
  | [], current => if current.isEmpty then [] else [pyStrip current]
  | part :: more, current =>
    if (headerMatchLen part).isSome then
      (if current.isEmpty then [] else [pyStrip current]) ++ headerGroup more part
    else headerGroup more (current ++ part)

/-- The default delimiter `'---'` of `chunk_document_based`. -/
def docDelimiter : Str := ['-', '-', '-']

/-- `chunk_document_based(text, delimiter)`: split on the delimiter if it
occurs in the text, otherwise split on markdown headers if one occurs,
otherwise split on paragraph breaks; strip every chunk and drop blanks. -/
def chunk_document_based (text : Str) (delim : Str) : List Str :=
  if (findSub delim text).isSome then
    ((pySplit delim text).map pyStrip).filter (fun c => !c.isEmpty)
  else if (findHeader text).isSome then
    (headerGroup (splitHeaders text) []).filter (fun c => !c.isEmpty)
  else
    ((pySplit ['\n', '\n'] text).map pyStrip).filter (fun c => !c.isEmpty)

/-! ### The chunking entry point (`chunk_document`) -/

/-- Strategy name `'fixed'`. -/
def sFixed : Str := ['f', 'i', 'x', 'e', 'd']

/-- Strategy name `'recursive'`. -/
def sRecursive : Str := ['r', 'e', 'c', 'u', 'r', 's', 'i', 'v', 'e']

/-- Strategy name `'document'`. -/
def sDocument : Str := ['d', 'o', 'c', 'u', 'm', 'e', 'n', 't']

/-- Strategy name `'semantic'`. -/
def sSemantic : Str := ['s', 'e', 'm', 'a', 'n', 't', 'i', 'c']

/-- Strategy name `'agentic'`. -/
def sAgentic : Str := ['a', 'g', 'e', 'n', 't', 'i', 'c']

/-- `chunk_document(text, strategy)`: dispatch on the strategy name. The
`'semantic'` and `'agentic'` branches of the source are placeholders that
return `[text]` (they do not call `chunk_semantic` / `chunk_agentic`), and
unknown names also fall back to `[text]`. -/
def chunk_document (text strategy : Str) : List Str :=
  if strategy = sFixed then chunk_fixed_size text 1000 200
  else if strategy = sRecursive then chunk_recursive text 1000
  else if strategy = sDocument then chunk_document_based text docDelimiter
  else if strategy = sSemantic then [text]
  else if strategy = sAgentic then [text]
  else [text]

/-! ### Top-K retrieval (`retrieve_top_k`) -/

/-- The scored chunk list of `retrieve_top_k`: each chunk paired with its
word-overlap score against the query. -/
def scoredChunks (chunks : List Str) (query : Str) : List (Str × Nat) :=
  chunks.map (fun c => (c, overlapScore query c))

/-- Python's `scored_chunks.sort(key=lambda x: x[1], reverse=True)` is a
stable descending sort by score; embedded as insertion sort with the
total preorder "score of the left is at least the score of the right". -/
def rankedPairs (chunks : List Str) (query : Str) : List (Str × Nat) :=
  List.insertionSort (fun a b : Str × Nat => b.2 ≤ a.2) (scoredChunks chunks query)

/-- The chunk texts selected by `retrieve_top_k` before joining. -/
def topkSelected (chunks : List Str) (query : Str) (k : Int) : List Str :=
  (pythonTake k (rankedPairs chunks query)).map Prod.fst

/-- `retrieve_top_k(chunks, query, k)`. -/
def retrieve_top_k (chunks : List Str) (query : Str) (k : Int) : Str :=
  pyJoin ctxSep (topkSelected chunks query k)

/-- The stably-sorted scored chunks with their original indices attached
(`enum` before sorting), used to state the stability of the sort. -/
def rankedEnum (chunks : List Str) (query : Str) : List (Nat × Str × Nat) :=
  List.insertionSort (fun a b : Nat × Str × Nat => b.2.2 ≤ a.2.2)
    ((scoredChunks chunks query).enum)

/-! ### MMR retrieval (`retrieve_mmr`) -/

/-- Python `max(l)` for a list of rationals (the MMR scores); `max` of a
non-empty list, with an unreachable default for `[]`. -/
def pyMaxQ : List ℚ → ℚ
  | [] => 0
  | x :: xs => xs.foldl max x

/-- Python `max(l)` for a list of naturals (the relevance scores). -/
def pyMaxNat (l : List Nat) : Nat := l.foldl max 0

/-- Python `l.index(v)`: index of the first occurrence of `v`. -/
def pyIndexOf [DecidableEq α] (v : α) (l : List α) : Nat :=
  l.findIdx (fun x => decide (x = v))

/-- The asymmetric similarity of `retrieve_mmr`:
`len(chunk_words ∩ selected_words) / max(len(chunk_words), 1)`. -/
def mmrSim (cand sel : Str) : ℚ :=
  (((wordSet cand) ∩ (wordSet sel)).card : ℚ) / (max (wordSet cand).card 1 : ℚ)

/-- `max_similarity` of a candidate against the already selected chunks,
starting from `0`. -/
def maxSimTo (selected : List Str) (cand : Str) : ℚ :=
  selected.foldl (fun m s => max m (mmrSim cand s)) 0

/-- The MMR score `lambda * relevance - (1 - lambda) * max_similarity`. -/
def mmrScore (lam : ℚ) (rel : Nat) (ms : ℚ) : ℚ :=
  lam * (rel : ℚ) - (1 - lam) * ms

/-- The selection loop of `retrieve_mmr`: while fewer than `k` chunks are
selected and candidates remain, pick the first candidate maximising the
MMR score, move it from `remaining` to `selected`. One candidate is
removed per iteration, so `remaining.length` fuel always suffices. -/
def mmrLoop (lam : ℚ) (k : Int) : Nat → List Str → List (Str × Nat) → List Str
  | 0, selected, _ => selected
  | fuel + 1, selected, remaining =>
    if remaining.isEmpty || !decide ((selected.length : Int) < k) then selected
    else
      let scores := remaining.map (fun p => mmrScore lam p.2 (maxSimTo selected p.1))
      let best := pyIndexOf (pyMaxQ scores) scores
      mmrLoop lam k fuel (selected ++ [(remaining.getD best ([], 0)).1])
        (remaining.eraseIdx best)

/-- The chunk texts selected by `retrieve_mmr`, in selection order: on a
non-empty corpus the single highest-relevance chunk is selected first
(before the `k` bound is checked), then the loop runs. -/
def mmrSelected (chunks : List Str) (query : Str) (k : Int) (lam : ℚ) : List Str :=
  if chunks.isEmpty then []
  else
    let scored := scoredChunks chunks query
    let first := pyIndexOf (pyMaxNat (scored.map Prod.snd)) (scored.map Prod.snd)
    mmrLoop lam k (scored.eraseIdx first).length
      [(scored.getD first ([], 0)).1] (scored.eraseIdx first)

/-- `retrieve_mmr(chunks, query, k, lambda_param)`. -/
def retrieve_mmr (chunks : List Str) (query : Str) (k : Int) (lam : ℚ) : Str :=
  pyJoin ctxSep (mmrSelected chunks query k lam)

/-! ### Parent-document retrieval (`retrieve_parent_document`) -/

/-- The scored triples `(i, chunk, score)` of `retrieve_parent_document`. -/
def scoredEnum (chunks : List Str) (query : Str) : List (Nat × Str × Nat) :=
  chunks.enum.map (fun p => (p.1, p.2, overlapScore query p.2))

/-- The stable descending sort by score of the scored triples. -/
def parentRanked (chunks : List Str) (query : Str) : List (Nat × Str × Nat) :=
  List.insertionSort (fun a b : Nat × Str × Nat => b.2.2 ≤ a.2.2)
    (scoredEnum chunks query)

/-- The context expansion of one selected triple: previous chunk (if any),
the chunk itself, next chunk (if any), in original order, joined by single
spaces. -/
def expandAt (chunks : List Str) (t : Nat × Str × Nat) : Str :=
  pyJoin [' ']
    ((if 0 < t.1 then [chunks.getD (t.1 - 1) []] else []) ++ [t.2.1] ++
      (if t.1 < chunks.length - 1 then [chunks.getD (t.1 + 1) []] else []))

/-- The expanded groups of `retrieve_parent_document`: each of the top-`k`
triples expanded independently. -/
def parentExpanded (chunks : List Str) (query : Str) (k : Int) : List Str :=
  (pythonTake k (parentRanked chunks query)).map (expandAt chunks)

/-- `retrieve_parent_document(chunks, query, k)`. -/
def retrieve_parent_document (chunks : List Str) (query : Str) (k : Int) : Str :=
  pyJoin ctxSep (parentExpanded chunks query k)

/-- Number of occurrence positions of `pat` in `l`. -/
def occCount (pat l : Str) : Nat :=
  ((List.range (l.length + 1)).filter (fun i => pat.isPrefixOf (l.drop i))).length

/-! ### The embedding / lexical-index caches (`retrieve_semantic`,
`retrieve_hybrid`)

`retrieval.py` keeps module-level caches `_chunk_embeddings` and
`_bm25_index`. Both `retrieve_semantic` (lines 102-104) and
`retrieve_hybrid` (lines 161-168) recompute a cache only when it is
`None` or its length differs from `len(chunks)`; otherwise the cached
value is consulted as-is. The embedding provider is abstracted as a
function `embed` (deterministic per the spec), and the BM25 index is
represented by the tokenised chunk list it is built from (whose length is
`len(index.doc_freqs)`). -/

/-- The chunk embeddings consulted by a semantic/hybrid retrieval call,
given the current cache: reuse the cache exactly when it exists and has
the same length as `chunks`, otherwise recompute. -/
def embedConsulted (embed : Str → α) (cache : Option (List α)) (chunks : List Str) : List α :=
  match cache with
  | none => chunks.map embed
  | some e => if e.length = chunks.length then e else chunks.map embed

/-- The cache state after a semantic/hybrid retrieval call. -/
def embedCacheAfter (embed : Str → α) (cache : Option (List α)) (chunks : List Str) :
    Option (List α) :=
  some (embedConsulted embed cache chunks)

/-- The BM25 index consulted by a hybrid retrieval call, given the current
cache: reuse exactly when it exists and indexes the same number of
documents, otherwise rebuild from the tokenised chunks. -/
def bm25Consulted (cache : Option (List (List Str))) (chunks : List Str) : List (List Str) :=
  match cache with
  | none => chunks.map pyWords
  | some ix => if ix.length = chunks.length then ix else chunks.map pyWords

/-! ### Concrete inputs used in counterexamples and witnesses -/

/-- A 1004-character text with one paragraph break: long enough that
recursive chunking must split it. -/
def c5Text : Str := List.replicate 501 'a' ++ '\n' :: '\n' :: List.replicate 501 'b'

/-- Three chunks of which the first two are adjacent and tie on the query
`"a"`. -/
def c10Chunks : List Str := [['x', ' ', 'a'], ['y', ' ', 'a'], ['z']]

/-- Whether `pat` occurs as a contiguous substring of `l`
(Python `pat in l`). -/
def hasOcc (pat l : Str) : Bool := (findSub pat l).isSome

/-- `c` is a contiguous substring of `l`. -/
def InfixOf (c l : Str) : Prop := ∃ p q, l = p ++ c ++ q

/-! ## Theorems -/

theorem fixedLoopIndex_nonpos (chunkSize overlap : Int) (h : chunkSize ≤ overlap) :
    ∀ n, fixedLoopIndex chunkSize overlap n ≤ 0 := by
  intro n
  induction n with
  | zero => simp [fixedLoopIndex]
  | succ n ih => simp only [fixedLoopIndex]; omega

/-- Claim C1: with `overlap >= chunk_size` the loop index of
`chunk_fixed_size` satisfies the loop condition `i < len(text)` after
every number of iterations on a non-empty text, so the `while` loop never
terminates; in particular no `ConfigurationError` is raised — the code
does not fail fast as the claim requires. -/
theorem fixed_size_nonpositive_stride_loops_forever (chunkSize overlap : Int)
    (h : chunkSize ≤ overlap) (text : Str) (ht : text ≠ []) (n : Nat) :
    fixedLoopIndex chunkSize overlap n < (text.length : Int) := by
  have h1 := fixedLoopIndex_nonpos chunkSize overlap h n
  have h2 : 0 < text.length := List.length_pos.mpr ht
  omega

/-- Witness for C1 at `chunk_size = overlap = 1000`, `text = "a"`,
`n = 3`. -/
theorem fixed_size_nonpositive_stride_loops_forever_witness :
    (1000 : Int) ≤ 1000 ∧ (['a'] : Str) ≠ [] ∧
      fixedLoopIndex 1000 1000 3 < (((['a'] : Str)).length : Int) :=
  ⟨by decide, by decide,
    fixed_size_nonpositive_stride_loops_forever 1000 1000 (by decide) ['a'] (by decide) 3⟩

/-- Claim C2: the caches of `retrieve_semantic` / `retrieve_hybrid` are
compared only by length, so a second call whose chunk sequence has equal
length but different content consults the stale cache instead of
recomputing. With the identity embedding provider: after a call on
`["a"]`, a call on `["b"]` consults the cached embedding of `"a"`, which
is not the embedding sequence of the current chunks; likewise the BM25
index built from `["a"]` is reused for `["b"]`. -/
theorem semantic_hybrid_cache_stale_on_equal_length :
    embedConsulted (fun s => s) (embedCacheAfter (fun s => s) none [['a']]) [['b']] = [['a']] ∧
      [['a']] ≠ List.map (fun s => s) [['b']] ∧
      bm25Consulted (some (List.map pyWords [['a']])) [['b']] = List.map pyWords [['a']] ∧
      List.map pyWords [['a']] ≠ List.map pyWords [['b']] := by
  refine ⟨rfl, by decide, rfl, by decide⟩

set_option maxRecDepth 40000 in
/-- Claim C5: the dispatcher `chunk_document` sends the strategy name
`'agentic'` to the placeholder `[text]` and never calls `chunk_agentic`,
even though `chunk_agentic` itself does delegate to recursive chunking;
on a 1004-character text with a paragraph break the dispatcher output
differs from recursive chunking. -/
theorem agentic_strategy_does_not_delegate_to_recursive :
    (∀ text, chunk_agentic text = chunk_recursive text 1000) ∧
      chunk_document c5Text sAgentic = [c5Text] ∧
      chunk_recursive c5Text 1000 ≠ [c5Text] :=
  ⟨fun _ => rfl, rfl, by decide⟩

/-- Claim C10: each top-`k` triple of `retrieve_parent_document` is
expanded independently with its neighbours (in original order, joined by
single spaces); on three chunks where the two top-scoring chunks are
adjacent, the groups are `"x a y a"` and `"x a y a z"`, and the chunk text
`"y a"` occurs (at least) twice in the returned context. -/
theorem parent_document_neighbor_expansion_duplicates :
    (∀ chunks query k,
        retrieve_parent_document chunks query k =
          pyJoin ctxSep ((pythonTake k (parentRanked chunks query)).map (expandAt chunks))) ∧
      parentExpanded c10Chunks ['a'] 2 =
        [['x', ' ', 'a', ' ', 'y', ' ', 'a'],
          ['x', ' ', 'a', ' ', 'y', ' ', 'a', ' ', 'z']] ∧
      2 ≤ occCount ['y', ' ', 'a'] (retrieve_parent_document c10Chunks ['a'] 2) :=
  ⟨fun _ _ _ => rfl, by decide, by decide⟩

theorem pyStrip_eq_rdropWhile (l : Str) :
    pyStrip l = List.rdropWhile pyIsSpace (List.dropWhile pyIsSpace l) := rfl

theorem dropWhile_of_prefix_of_fixed (p : α → Bool) (x M : List α)
    (hpre : x <+: M) (hM : List.dropWhile p M = M) : List.dropWhile p x = x := by
  cases x with
  | nil => rfl
  | cons c x' =>
    obtain ⟨t, ht⟩ := hpre
    rw [List.cons_append] at ht
    have hc : p c = false := by
      by_contra hc
      have hc' : p c = true := by
        cases hpc : p c with
        | false => exact absurd hpc hc
        | true => rfl
      have heq : List.dropWhile p M = List.dropWhile p (x' ++ t) := by
        rw [← ht, List.dropWhile_cons, if_pos hc']
      have hlen := congrArg List.length (hM ▸ heq)
      have hle : (List.dropWhile p (x' ++ t)).length ≤ (x' ++ t).length :=
        (List.dropWhile_sublist (l := x' ++ t) p).length_le
      rw [← ht] at hlen
      simp only [List.length_cons] at hlen
      omega
    rw [List.dropWhile_cons, hc]
    simp

theorem pyStrip_idem (l : Str) : pyStrip (pyStrip l) = pyStrip l := by
  rw [pyStrip_eq_rdropWhile l, pyStrip_eq_rdropWhile]
  rw [dropWhile_of_prefix_of_fixed pyIsSpace _ (List.dropWhile pyIsSpace l)
    (List.rdropWhile_prefix _ _) (List.dropWhile_idempotent _ _)]
  exact List.rdropWhile_idempotent _ _

theorem recGo_nonblank (maxCS : Nat) :
    ∀ fuel seps text c, c ∈ recGo maxCS fuel seps text → (pyStrip c).isEmpty = false := by
  intro fuel
  induction fuel with
  | zero => intro seps text c hc; simp [recGo] at hc
  | succ fuel _ =>
    intro seps text c hc
    match seps with
    | [] =>
      simp only [recGo] at hc
      cases h : (pyStrip text).isEmpty with
      | true => rw [h] at hc; simp at hc
      | false => rw [h] at hc; simp at hc; rw [hc]; exact h
    | sep :: rest =>
      simp only [recGo] at hc
      by_cases hlen : text.length ≤ maxCS
      · rw [if_pos hlen] at hc
        cases h : (pyStrip text).isEmpty with
        | true => rw [h] at hc; simp at hc
        | false => rw [h] at hc; simp at hc; rw [hc]; exact h
      · rw [if_neg hlen] at hc
        have := (List.mem_filter.mp hc).2
        simpa using this

theorem headerGroup_mem_strip :
    ∀ parts current c, c ∈ headerGroup parts current → ∃ t, c = pyStrip t := by
  intro parts
  induction parts with
  | nil =>
    intro current c hc
    simp only [headerGroup] at hc
    cases h : current.isEmpty with
    | true => rw [h] at hc; simp at hc
    | false => rw [h] at hc; simp at hc; exact ⟨current, hc⟩
  | cons part more ih =>
    intro current c hc
    simp only [headerGroup] at hc
    by_cases hp : (headerMatchLen part).isSome
    · rw [if_pos hp, List.mem_append] at hc
      rcases hc with hc | hc
      · cases h : current.isEmpty with
        | true => rw [h] at hc; simp at hc
        | false => rw [h] at hc; simp at hc; exact ⟨current, hc⟩
      · exact ih part c hc
    · rw [if_neg hp] at hc
      exact ih (current ++ part) c hc

/-- Claim C6 counterexample: the `'semantic'` placeholder branch of
`chunk_document` returns `[text]` unchanged, so an empty document yields
`[""]`: a non-empty chunk sequence containing a chunk that is empty after
trimming. -/
theorem semantic_placeholder_empty_chunk :
    chunk_document [] sSemantic = [([] : Str)] ∧
      pyStrip ([] : Str) = [] ∧ chunk_document [] sSemantic ≠ [] := by
  refine ⟨rfl, rfl, by decide⟩

/-- Claim C6 (amended): for the three implemented strategies (`'fixed'`,
`'recursive'`, `'document'`) every chunk returned by `chunk_document` is
non-empty after trimming, and an empty document yields an empty chunk
sequence; the placeholder strategies (`'semantic'`, `'agentic'`, unknown
names) instead return the whole text as a single chunk, so an empty
document yields `[""]` there. -/
theorem implemented_strategies_chunks_nonblank (text strategy : Str)
    (h : strategy = sFixed ∨ strategy = sRecursive ∨ strategy = sDocument) :
    (∀ c ∈ chunk_document text strategy, (pyStrip c).isEmpty = false) ∧
      chunk_document [] strategy = [] := by
  rcases h with h | h | h <;> subst h
  · constructor
    · intro c hc
      simp only [chunk_document, if_pos rfl] at hc
      have := (List.mem_filter.mp hc).2
      simpa using this
    · decide
  · constructor
    · intro c hc
      have hne : sRecursive ≠ sFixed := by decide
      simp only [chunk_document, if_neg hne, if_pos rfl] at hc
      exact recGo_nonblank 1000 _ _ text c hc
    · decide
  · constructor
    · intro c hc
      have h1 : sDocument ≠ sFixed := by decide
      have h2 : sDocument ≠ sRecursive := by decide
      simp only [chunk_document, if_neg h1, if_neg h2, if_pos rfl] at hc
      simp only [chunk_document_based] at hc
      by_cases hd : (findSub docDelimiter text).isSome
      · rw [if_pos hd] at hc
        obtain ⟨hmem, hne⟩ := List.mem_filter.mp hc
        obtain ⟨p, _, hp⟩ := List.mem_map.mp hmem
        subst hp
        rw [pyStrip_idem]
        simpa using hne
      · rw [if_neg hd] at hc
        by_cases hh : (findHeader text).isSome
        · rw [if_pos hh] at hc
          obtain ⟨hmem, hne⟩ := List.mem_filter.mp hc
          obtain ⟨t, ht⟩ := headerGroup_mem_strip _ _ _ hmem
          subst ht
          rw [pyStrip_idem]
          simpa using hne
        · rw [if_neg hh] at hc
          obtain ⟨hmem, hne⟩ := List.mem_filter.mp hc
          obtain ⟨p, _, hp⟩ := List.mem_map.mp hmem
          subst hp
          rw [pyStrip_idem]
          simpa using hne
    · decide

/-- Witness for C6 (amended) at `text = "hi"`, `strategy = 'fixed'`. -/
theorem implemented_strategies_chunks_nonblank_witness :
    ((sFixed = sFixed ∨ sFixed = sRecursive ∨ sFixed = sDocument) ∧
      (∀ c ∈ chunk_document ['h', 'i'] sFixed, (pyStrip c).isEmpty = false) ∧
        chunk_document [] sFixed = []) :=
  ⟨Or.inl rfl, implemented_strategies_chunks_nonblank ['h', 'i'] sFixed (Or.inl rfl)⟩

theorem mmrLoop_eq_append (lam : ℚ) (k : Int) :
    ∀ fuel (sel : List Str) rem, ∃ rest, mmrLoop lam k fuel sel rem = sel ++ rest := by
  intro fuel
  induction fuel with
  | zero => intro sel rem; exact ⟨[], by simp [mmrLoop]⟩
  | succ fuel ih =>
    intro sel rem
    by_cases hstop : (rem.isEmpty || !decide ((sel.length : Int) < k)) = true
    · exact ⟨[], by simp [mmrLoop, hstop]⟩
    · have hcond : (rem.isEmpty || !decide ((sel.length : Int) < k)) = false := by
        simpa using hstop
      obtain ⟨rest, hrest⟩ := ih (sel ++ [(rem.getD (pyIndexOf
        (pyMaxQ (rem.map (fun p => mmrScore lam p.2 (maxSimTo sel p.1))))
        (rem.map (fun p => mmrScore lam p.2 (maxSimTo sel p.1)))) ([], 0)).1])
        (rem.eraseIdx (pyIndexOf
          (pyMaxQ (rem.map (fun p => mmrScore lam p.2 (maxSimTo sel p.1))))
          (rem.map (fun p => mmrScore lam p.2 (maxSimTo sel p.1)))))
      refine ⟨[(rem.getD (pyIndexOf
        (pyMaxQ (rem.map (fun p => mmrScore lam p.2 (maxSimTo sel p.1))))
        (rem.map (fun p => mmrScore lam p.2 (maxSimTo sel p.1)))) ([], 0)).1] ++ rest, ?_⟩
      simp only [mmrLoop, hcond, Bool.false_eq_true, if_false]
      rw [hrest, List.append_assoc]

theorem mmrLoop_stops_of_k_nonpos (lam : ℚ) (k : Int) (hk : k ≤ 0)
    (fuel : Nat) (sel : List Str) (hsel : sel ≠ []) (rem : List (Str × Nat)) :
    mmrLoop lam k fuel sel rem = sel := by
  cases fuel with
  | zero => rfl
  | succ fuel =>
    have hlt : ¬((sel.length : Int) < k) := by
      have : 0 < sel.length := List.length_pos.mpr hsel
      omega
    simp [mmrLoop, hlt]

theorem foldl_max_mem (l : List Nat) (a : Nat) : l.foldl max a = a ∨ l.foldl max a ∈ l := by
  induction l generalizing a with
  | nil => exact Or.inl rfl
  | cons b t ih =>
    simp only [List.foldl_cons]
    rcases ih (max a b) with h | h
    · rcases max_choice a b with hm | hm
      · exact Or.inl (by rw [h, hm])
      · exact Or.inr (by rw [h, hm]; exact List.mem_cons_self b t)
    · exact Or.inr (List.mem_cons_of_mem b h)

theorem pyMaxNat_mem (l : List Nat) (h : l ≠ []) : pyMaxNat l ∈ l := by
  cases l with
  | nil => exact absurd rfl h
  | cons x xs =>
    have hx : pyMaxNat (x :: xs) = xs.foldl max x := by
      simp [pyMaxNat]
    rw [hx]
    rcases foldl_max_mem xs x with h1 | h1
    · rw [h1]; exact List.mem_cons_self x xs
    · exact List.mem_cons_of_mem x h1

theorem getD_mem (l : List α) (n : Nat) (d : α) (h : n < l.length) : l.getD n d ∈ l := by
  rw [List.getD_eq_getElem l d h]
  exact List.getElem_mem h

theorem pyJoin_cons_ne_nil (sep : Str) (x : Str) (rest : List Str) (hx : x ≠ []) :
    pyJoin sep (x :: rest) ≠ [] := by
  cases rest with
  | nil => simpa [pyJoin] using hx
  | cons q ps =>
    simp only [pyJoin, ne_eq, List.append_assoc, List.append_eq_nil]
    intro h
    exact hx h.1

theorem mmrSelected_cons (chunks : List Str) (query : Str) (k : Int) (lam : ℚ)
    (h : chunks ≠ []) :
    ∃ x rest, mmrSelected chunks query k lam = x :: rest ∧ x ∈ chunks := by
  have hne : chunks.isEmpty = false := by simpa [List.isEmpty_iff] using h
  have hscored : (scoredChunks chunks query).map Prod.snd ≠ [] := by
    simp [scoredChunks]
    exact h
  have hmax : pyMaxNat ((scoredChunks chunks query).map Prod.snd) ∈
      (scoredChunks chunks query).map Prod.snd := pyMaxNat_mem _ hscored
  have hidx : pyIndexOf (pyMaxNat ((scoredChunks chunks query).map Prod.snd))
      ((scoredChunks chunks query).map Prod.snd) <
      ((scoredChunks chunks query).map Prod.snd).length := by
    apply List.findIdx_lt_length_of_exists
    exact ⟨_, hmax, by simp⟩
  have hidx' : pyIndexOf (pyMaxNat ((scoredChunks chunks query).map Prod.snd))
      ((scoredChunks chunks query).map Prod.snd) < (scoredChunks chunks query).length := by
    simpa using hidx
  have hmem : (scoredChunks chunks query).getD
      (pyIndexOf (pyMaxNat ((scoredChunks chunks query).map Prod.snd))
        ((scoredChunks chunks query).map Prod.snd)) ([], 0) ∈ scoredChunks chunks query :=
    getD_mem _ _ _ hidx'
  obtain ⟨rest, hrest⟩ := mmrLoop_eq_append lam k
    ((scoredChunks chunks query).eraseIdx (pyIndexOf
      (pyMaxNat ((scoredChunks chunks query).map Prod.snd))
      ((scoredChunks chunks query).map Prod.snd))).length
    [((scoredChunks chunks query).getD
      (pyIndexOf (pyMaxNat ((scoredChunks chunks query).map Prod.snd))
        ((scoredChunks chunks query).map Prod.snd)) ([], 0)).1]
    ((scoredChunks chunks query).eraseIdx (pyIndexOf
      (pyMaxNat ((scoredChunks chunks query).map Prod.snd))
      ((scoredChunks chunks query).map Prod.snd)))
  refine ⟨((scoredChunks chunks query).getD
      (pyIndexOf (pyMaxNat ((scoredChunks chunks query).map Prod.snd))
        ((scoredChunks chunks query).map Prod.snd)) ([], 0)).1, rest, ?_, ?_⟩
  · simp only [mmrSelected, hne, Bool.false_eq_true, if_false]
    rw [hrest]
    simp
  · obtain ⟨c, hc, hc2⟩ := List.mem_map.mp hmem
    rw [← hc2]
    exact hc

/-- Claim C9 (amended): on a non-empty chunk list, `retrieve_mmr` always
selects at least one chunk — the single highest-relevance chunk is picked
before the `k` bound is first checked, so for `k ≤ 0` exactly one chunk is
selected; the joined context string is non-empty provided the chunks are
non-empty strings (with an empty-string chunk the context can still be the
empty string, as the counterexample shows). -/
theorem mmr_selects_at_least_one (chunks : List Str) (query : Str) (k : Int) (lam : ℚ)
    (h : chunks ≠ []) :
    1 ≤ (mmrSelected chunks query k lam).length ∧
      (k ≤ 0 → (mmrSelected chunks query k lam).length = 1) ∧
      ((∀ c ∈ chunks, c ≠ ([] : Str)) → retrieve_mmr chunks query k lam ≠ []) := by
  obtain ⟨x, rest, hsel, hxmem⟩ := mmrSelected_cons chunks query k lam h
  refine ⟨by rw [hsel]; simp, ?_, ?_⟩
  · intro hk
    have hne : chunks.isEmpty = false := by simpa [List.isEmpty_iff] using h
    simp only [mmrSelected, hne, Bool.false_eq_true, if_false]
    rw [mmrLoop_stops_of_k_nonpos lam k hk _ _ (by simp) _]
    rfl
  · intro hall
    rw [retrieve_mmr, hsel]
    exact pyJoin_cons_ne_nil ctxSep x rest (hall x hxmem)

/-- Claim C9 counterexample: on the one-element chunk list `[""]` (a
non-empty list) with `k = 0`, the returned context is the empty string. -/
theorem mmr_empty_string_chunk_empty_context :
    ([([] : Str)] : List Str) ≠ [] ∧ retrieve_mmr [([] : Str)] ['q'] 0 (1 / 2) = [] := by
  refine ⟨by decide, by decide⟩

/-- Witness for C9 (amended) at `chunks = ["a"]`, `query = "a"`, `k = 0`,
`lambda = 1/2`. -/
theorem mmr_selects_at_least_one_witness :
    ([['a']] : List Str) ≠ [] ∧
      (1 ≤ (mmrSelected [['a']] ['a'] 0 (1 / 2)).length ∧
        ((0 : Int) ≤ 0 → (mmrSelected [['a']] ['a'] 0 (1 / 2)).length = 1) ∧
        ((∀ c ∈ ([['a']] : List Str), c ≠ ([] : Str)) →
          retrieve_mmr [['a']] ['a'] 0 (1 / 2) ≠ [])) :=
  ⟨by decide, mmr_selects_at_least_one [['a']] ['a'] 0 (1 / 2) (by decide)⟩

theorem pairwise_stable_orderedInsert (key idx : α → Nat) (x : α) (l : List α)
    (hsorted : l.Pairwise (fun a b => key b ≤ key a))
    (hS : l.Pairwise (fun a b => key b < key a ∨ (key a = key b ∧ idx a < idx b)))
    (hidx : ∀ y ∈ l, idx x < idx y) :
    (List.orderedInsert (fun a b => key b ≤ key a) x l).Pairwise
      (fun a b => key b < key a ∨ (key a = key b ∧ idx a < idx b)) := by
  induction l with
  | nil => simp [List.orderedInsert]
  | cons b t ih =>
    simp only [List.orderedInsert]
    by_cases hxb : key b ≤ key x
    · rw [if_pos hxb]
      refine List.pairwise_cons.mpr ⟨?_, hS⟩
      intro z hz
      have hzb : key z ≤ key b := by
        rcases List.mem_cons.mp hz with hz | hz
        · rw [hz]
        · exact List.rel_of_pairwise_cons hsorted hz
      rcases lt_or_eq_of_le (le_trans hzb hxb) with hlt | heq
      · exact Or.inl hlt
      · exact Or.inr ⟨heq.symm, hidx z hz⟩
    · rw [if_neg hxb]
      refine List.pairwise_cons.mpr ⟨?_, ?_⟩
      · intro z hz
        rcases (List.mem_orderedInsert (fun a b => key b ≤ key a)).mp hz with hz | hz
        · rw [hz]
          exact Or.inl (lt_of_not_le hxb)
        · exact List.rel_of_pairwise_cons hS hz
      · exact ih hsorted.of_cons hS.of_cons (fun y hy => hidx y (List.mem_cons_of_mem b hy))

theorem pairwise_stable_insertionSort (key idx : α → Nat) (l : List α)
    (hidx : l.Pairwise (fun a b => idx a < idx b)) :
    (List.insertionSort (fun a b => key b ≤ key a) l).Pairwise
      (fun a b => key b < key a ∨ (key a = key b ∧ idx a < idx b)) := by
  haveI htot : IsTotal α (fun a b => key b ≤ key a) := ⟨fun a b => le_total (key b) (key a)⟩
  haveI htr : IsTrans α (fun a b => key b ≤ key a) :=
    ⟨fun a b c hab hbc => le_trans hbc hab⟩
  induction l with
  | nil => simp [List.insertionSort]
  | cons x xs ih =>
    simp only [List.insertionSort]
    apply pairwise_stable_orderedInsert key idx x _
      (List.sorted_insertionSort _ xs) (ih hidx.of_cons)
    intro y hy
    exact List.rel_of_pairwise_cons hidx ((List.mem_insertionSort _).mp hy)

theorem le_fst_of_mem_enumFrom (n : Nat) (l : List α) :
    ∀ p ∈ List.enumFrom n l, n ≤ p.1 := by
  induction l generalizing n with
  | nil => intro p hp; simp at hp
  | cons x xs ih =>
    intro p hp
    rcases List.mem_cons.mp hp with hp | hp
    · rw [hp]
    · exact le_trans (Nat.le_succ n) (ih (n + 1) p hp)

theorem pairwise_lt_enumFrom (n : Nat) (l : List α) :
    (List.enumFrom n l).Pairwise (fun a b => a.1 < b.1) := by
  induction l generalizing n with
  | nil => simp
  | cons x xs ih =>
    refine List.pairwise_cons.mpr ⟨?_, ih (n + 1)⟩
    intro p hp
    exact lt_of_lt_of_le (Nat.lt_succ_self n) (le_fst_of_mem_enumFrom (n + 1) xs p hp)

theorem pairwise_lt_enum (l : List α) : l.enum.Pairwise (fun a b => a.1 < b.1) :=
  pairwise_lt_enumFrom 0 l

theorem rankedEnum_map_snd (chunks : List Str) (query : Str) :
    (rankedEnum chunks query).map Prod.snd = rankedPairs chunks query := by
  rw [rankedEnum, rankedPairs]
  rw [List.map_insertionSort (fun a b : Nat × Str × Nat => b.2.2 ≤ a.2.2)
    (fun a b : Str × Nat => b.2 ≤ a.2) Prod.snd _ (fun a _ b _ => Iff.rfl)]
  rw [List.enum_map_snd]

/-- Claim C7: `retrieve_top_k` scores every chunk by the size of the
intersection of the lowercase whitespace-tokenised word sets (this is
`overlapScore`, folded into `scoredChunks`), sorts stably by descending
score (`rankedPairs`), takes the first `k` and joins with `"\n---\n"`.
Stability: the sort with original indices attached (`rankedEnum`) is a
permutation of the enumerated scored list, its projection is exactly the
sorted list used by `retrieve_top_k`, and any earlier entry either has a
strictly larger score or an equal score and a smaller original index.
For `0 ≤ k`, `min k n` chunks are selected. Determinism is immediate:
the function is pure, so two calls on identical inputs are identical. -/
theorem top_k_stable_sort_take_join (chunks : List Str) (query : Str) (k : Int) :
    retrieve_top_k chunks query k =
      pyJoin ctxSep ((pythonTake k (rankedPairs chunks query)).map Prod.fst) ∧
      (rankedEnum chunks query).Perm (scoredChunks chunks query).enum ∧
      (rankedEnum chunks query).Pairwise
        (fun a b => b.2.2 < a.2.2 ∨ (a.2.2 = b.2.2 ∧ a.1 < b.1)) ∧
      (rankedEnum chunks query).map Prod.snd = rankedPairs chunks query ∧
      (0 ≤ k → (topkSelected chunks query k).length = min k.toNat chunks.length) := by
  refine ⟨rfl, List.perm_insertionSort _ _, ?_, rankedEnum_map_snd chunks query, ?_⟩
  · exact pairwise_stable_insertionSort (fun t : Nat × Str × Nat => t.2.2) Prod.fst _
      (pairwise_lt_enum _)
  · intro hk
    have hnneg : ¬(k < 0) := by omega
    simp only [topkSelected, pythonTake, if_neg hnneg, List.length_map, List.length_take,
      rankedPairs, List.length_insertionSort, scoredChunks, List.length_map]

/-- Witness for C7 at `chunks = ["a"]`, `query = "a"`, `k = 1`. -/
theorem top_k_stable_sort_take_join_witness :
    ((0 : Int) ≤ 1) ∧ (topkSelected [['a']] ['a'] 1).length = min (Int.toNat 1) 1 :=
  ⟨by decide, by
    have h := (top_k_stable_sort_take_join [['a']] ['a'] 1).2.2.2.2 (by decide)
    simpa using h⟩

theorem foldl_max_comm (l : List Nat) : ∀ s : Nat, l.foldl max s = max s (l.foldl max 0) := by
  induction l with
  | nil => intro s; simp
  | cons b t ih =>
    intro s
    simp only [List.foldl_cons]
    rw [ih (max s b), ih (max 0 b), Nat.zero_max, Nat.max_assoc]

theorem pyMaxNat_cons (a : Nat) (l : List Nat) :
    pyMaxNat (a :: l) = max a (pyMaxNat l) := by
  simp only [pyMaxNat, List.foldl_cons, Nat.zero_max]
  exact foldl_max_comm l a

theorem le_pyMaxNat (l : List Nat) : ∀ a ∈ l, a ≤ pyMaxNat l := by
  induction l with
  | nil => intro a ha; simp at ha
  | cons b t ih =>
    intro a ha
    rw [pyMaxNat_cons]
    rcases List.mem_cons.mp ha with ha | ha
    · rw [ha]; exact le_max_left _ _
    · exact le_trans (ih a ha) (le_max_right _ _)

theorem insertionSort_head_max_key (key : α → Nat) (l : List α) (h : l ≠ []) :
    ∃ b t, List.insertionSort (fun a b => key b ≤ key a) l = b :: t ∧
      key b = pyMaxNat (l.map key) := by
  haveI htot : IsTotal α (fun a b => key b ≤ key a) := ⟨fun a b => le_total (key b) (key a)⟩
  haveI htr : IsTrans α (fun a b => key b ≤ key a) :=
    ⟨fun a b c hab hbc => le_trans hbc hab⟩
  have hlen : (List.insertionSort (fun a b => key b ≤ key a) l).length = l.length := by
    simp
  have hne : List.insertionSort (fun a b => key b ≤ key a) l ≠ [] := by
    intro hcon
    rw [hcon] at hlen
    exact h (List.length_eq_zero.mp hlen.symm)
  obtain ⟨b, t, hbt⟩ := List.exists_cons_of_ne_nil hne
  refine ⟨b, t, hbt, ?_⟩
  have hbl : b ∈ l := by
    have : b ∈ List.insertionSort (fun a b => key b ≤ key a) l := by
      rw [hbt]; exact List.mem_cons_self b t
    exact (List.mem_insertionSort _).mp this
  have hble : key b ≤ pyMaxNat (l.map key) :=
    le_pyMaxNat _ _ (List.mem_map.mpr ⟨b, hbl, rfl⟩)
  have hmem : pyMaxNat (l.map key) ∈ l.map key := by
    apply pyMaxNat_mem
    simp [h]
  obtain ⟨a, hal, ha⟩ := List.mem_map.mp hmem
  have hmem' : a ∈ b :: t := by
    rw [← hbt]
    exact (List.mem_insertionSort _).mpr hal
  rcases List.mem_cons.mp hmem' with heq | hat
  · rw [← ha, heq]
  · have hsorted := List.sorted_insertionSort (fun a b => key b ≤ key a) l
    rw [hbt] at hsorted
    have := List.rel_of_pairwise_cons hsorted hat
    omega

theorem insertionSort_selection (key : α → Nat) (dft : α) :
    ∀ l : List α, l ≠ [] →
      List.insertionSort (fun a b => key b ≤ key a) l =
        l.getD (pyIndexOf (pyMaxNat (l.map key)) (l.map key)) dft ::
          List.insertionSort (fun a b => key b ≤ key a)
            (l.eraseIdx (pyIndexOf (pyMaxNat (l.map key)) (l.map key))) := by
  intro l
  induction l with
  | nil => intro h; exact absurd rfl h
  | cons x xs ih =>
    intro _
    cases hxs : xs with
    | nil =>
      simp [List.insertionSort, List.orderedInsert, pyMaxNat, pyIndexOf, List.findIdx_cons]
    | cons y ys =>
      have hxsne : xs ≠ [] := by rw [hxs]; simp
      rw [← hxs]
      have hmax : pyMaxNat ((x :: xs).map key) = max (key x) (pyMaxNat (xs.map key)) := by
        rw [List.map_cons, pyMaxNat_cons]
      by_cases hA : pyMaxNat (xs.map key) ≤ key x
      · have hmax' : pyMaxNat ((x :: xs).map key) = key x := by
          rw [hmax]; omega
        have hidx : pyIndexOf (pyMaxNat ((x :: xs).map key)) ((x :: xs).map key) = 0 := by
          rw [hmax', pyIndexOf, List.map_cons, List.findIdx_cons]
          simp
        rw [hidx]
        simp only [List.getD_cons_zero, List.eraseIdx_cons_zero]
        apply List.insertionSort_cons
        intro b hb
        exact le_trans (le_pyMaxNat _ _ (List.mem_map.mpr ⟨b, hb, rfl⟩)) hA
      · have hlt : key x < pyMaxNat (xs.map key) := by omega
        have hmax' : pyMaxNat ((x :: xs).map key) = pyMaxNat (xs.map key) := by
          rw [hmax]; omega
        have hidx : pyIndexOf (pyMaxNat ((x :: xs).map key)) ((x :: xs).map key) =
            pyIndexOf (pyMaxNat (xs.map key)) (xs.map key) + 1 := by
          rw [hmax', pyIndexOf, List.map_cons, List.findIdx_cons]
          have : decide (key x = pyMaxNat (xs.map key)) = false := by
            simp
            omega
          rw [this]
          rfl
        rw [hidx]
        simp only [List.getD_cons_succ, List.eraseIdx_cons_succ]
        have hjlt : pyIndexOf (pyMaxNat (xs.map key)) (xs.map key) < (xs.map key).length := by
          apply List.findIdx_lt_length_of_exists
          refine ⟨pyMaxNat (xs.map key), ?_, by simp⟩
          apply pyMaxNat_mem
          simp [hxsne]
        have hkeyA : key (xs.getD (pyIndexOf (pyMaxNat (xs.map key)) (xs.map key)) dft) =
            pyMaxNat (xs.map key) := by
          have h1 : (xs.map key).getD (pyIndexOf (pyMaxNat (xs.map key)) (xs.map key))
              (key dft) = key (xs.getD (pyIndexOf (pyMaxNat (xs.map key)) (xs.map key)) dft) :=
            List.getD_map xs dft key
          rw [← h1, List.getD_eq_getElem _ _ hjlt]
          have := List.findIdx_getElem (w := hjlt)
          simpa using this
        simp only [List.insertionSort]
        rw [ih hxsne]
        simp only [List.orderedInsert]
        rw [if_neg (by rw [hkeyA]; omega)]

theorem mmrScore_one (rel : Nat) (ms : ℚ) : mmrScore 1 rel ms = (rel : ℚ) := by
  simp [mmrScore]

theorem foldl_max_cast (t : List Nat) : ∀ a : Nat,
    (t.map (Nat.cast : Nat → ℚ)).foldl max ((a : Nat) : ℚ) = ((t.foldl max a : Nat) : ℚ) := by
  induction t with
  | nil => intro a; simp
  | cons b t ih =>
    intro a
    simp only [List.map_cons, List.foldl_cons]
    rw [← Nat.cast_max, ih (max a b)]

theorem pyMaxQ_cast (l : List Nat) :
    pyMaxQ (l.map (Nat.cast : Nat → ℚ)) = ((pyMaxNat l : Nat) : ℚ) := by
  cases l with
  | nil => simp [pyMaxQ, pyMaxNat]
  | cons a t =>
    simp only [List.map_cons, pyMaxQ]
    rw [foldl_max_cast t a]
    have : pyMaxNat (a :: t) = t.foldl max a := by
      simp [pyMaxNat, Nat.zero_max]
    rw [this]

theorem pyIndexOf_cast (l : List Nat) (v : Nat) :
    pyIndexOf ((v : Nat) : ℚ) (l.map (Nat.cast : Nat → ℚ)) = pyIndexOf v l := by
  induction l with
  | nil => rfl
  | cons a t ih =>
    simp only [pyIndexOf, List.map_cons, List.findIdx_cons] at ih ⊢
    have hdec : decide (((a : Nat) : ℚ) = ((v : Nat) : ℚ)) = decide (a = v) := by
      simp [Nat.cast_inj]
    rw [hdec]
    cases h : decide (a = v) with
    | true => rfl
    | false => simp only [cond_false]; rw [ih]

theorem mmr_scores_at_one (sel : List Str) (rem : List (Str × Nat)) :
    rem.map (fun p => mmrScore 1 p.2 (maxSimTo sel p.1)) =
      (rem.map Prod.snd).map (Nat.cast : Nat → ℚ) := by
  rw [List.map_map]
  apply List.map_congr_left
  intro p _
  exact mmrScore_one p.2 _

theorem mmrLoop_one_eq_take (k : Int) (hk : 0 ≤ k) :
    ∀ fuel (rem : List (Str × Nat)) (sel : List Str), rem.length ≤ fuel →
      mmrLoop 1 k fuel sel rem =
        sel ++ (List.take (k.toNat - sel.length)
          (List.insertionSort (fun a b : Str × Nat => b.2 ≤ a.2) rem)).map Prod.fst := by
  intro fuel
  induction fuel with
  | zero =>
    intro rem sel hlen
    have : rem = [] := List.length_eq_zero.mp (Nat.le_zero.mp hlen)
    subst this
    simp [mmrLoop, List.insertionSort]
  | succ fuel ih =>
    intro rem sel hlen
    cases hrem : rem with
    | nil => simp [mmrLoop, List.insertionSort]
    | cons r rs =>
      rw [← hrem]
      have hremne : rem ≠ [] := by rw [hrem]; simp
      by_cases hsel : (sel.length : Int) < k
      · have hcond : (rem.isEmpty || !decide ((sel.length : Int) < k)) = false := by
          simp [List.isEmpty_iff, hremne, hsel]
        have htoNat : 1 ≤ k.toNat - sel.length := by omega
        simp only [mmrLoop, hcond, Bool.false_eq_true, if_false]
        rw [mmr_scores_at_one sel rem, pyMaxQ_cast, pyIndexOf_cast]
        rw [ih (rem.eraseIdx (pyIndexOf (pyMaxNat (rem.map Prod.snd)) (rem.map Prod.snd)))
          (sel ++ [(rem.getD (pyIndexOf (pyMaxNat (rem.map Prod.snd)) (rem.map Prod.snd))
            ([], 0)).1]) ?hfuel]
        case hfuel =>
          have hmm : pyMaxNat (rem.map Prod.snd) ∈ rem.map Prod.snd := by
            apply pyMaxNat_mem
            simp [hremne]
          have hvalid : pyIndexOf (pyMaxNat (rem.map Prod.snd)) (rem.map Prod.snd) <
              rem.length := by
            have h2 : List.findIdx (fun x => decide (x = pyMaxNat (rem.map Prod.snd)))
                (rem.map Prod.snd) < (rem.map Prod.snd).length :=
              List.findIdx_lt_length_of_exists ⟨_, hmm, by simp⟩
            rw [List.length_map] at h2
            exact h2
          have herase := List.length_eraseIdx_add_one hvalid
          omega
        rw [insertionSort_selection Prod.snd ([], 0) rem hremne]
        have htake : List.take (k.toNat - sel.length)
            ((rem.getD (pyIndexOf (pyMaxNat (rem.map Prod.snd)) (rem.map Prod.snd)) ([], 0)) ::
              List.insertionSort (fun a b : Str × Nat => b.2 ≤ a.2)
                (rem.eraseIdx (pyIndexOf (pyMaxNat (rem.map Prod.snd)) (rem.map Prod.snd)))) =
            (rem.getD (pyIndexOf (pyMaxNat (rem.map Prod.snd)) (rem.map Prod.snd)) ([], 0)) ::
              List.take (k.toNat - sel.length - 1)
                (List.insertionSort (fun a b : Str × Nat => b.2 ≤ a.2)
                  (rem.eraseIdx (pyIndexOf (pyMaxNat (rem.map Prod.snd)) (rem.map Prod.snd)))) := by
          cases hn : k.toNat - sel.length with
          | zero => omega
          | succ m => rw [List.take_succ_cons]; congr 1
        rw [htake]
        simp only [List.map_cons, List.append_assoc, List.singleton_append, List.length_append,
          List.length_cons, List.length_nil]
        simp only [Nat.zero_add, Nat.sub_sub]
      · have hcond : (rem.isEmpty || !decide ((sel.length : Int) < k)) = true := by
          simp [hsel]
        have htoNat : k.toNat - sel.length = 0 := by omega
        simp [mmrLoop, hcond, htoNat]

theorem mmrSelected_one_eq_topk (chunks : List Str) (query : Str) (k : Int)
    (h : chunks ≠ []) (hk : 1 ≤ k) :
    mmrSelected chunks query k 1 = topkSelected chunks query k := by
  have hne : chunks.isEmpty = false := by simpa [List.isEmpty_iff] using h
  have hscne : scoredChunks chunks query ≠ [] := by simp [scoredChunks, h]
  simp only [mmrSelected, hne, Bool.false_eq_true, if_false]
  rw [mmrLoop_one_eq_take k (by omega) _ _ _ (le_refl _)]
  rw [topkSelected, rankedPairs, pythonTake, if_neg (by omega : ¬k < 0)]
  rw [insertionSort_selection Prod.snd ([], 0) (scoredChunks chunks query) hscne]
  obtain ⟨m, hm⟩ : ∃ m, k.toNat = m + 1 := ⟨k.toNat - 1, by omega⟩
  rw [hm, List.take_succ_cons, List.map_cons]
  simp only [List.singleton_append, List.length_cons, List.length_nil, Nat.zero_add,
    Nat.add_sub_cancel]

/-- Claim C8 (amended, `k ≥ 1`): on a non-empty chunk list with `k ≥ 1`,
MMR retrieval with `lambda_param = 1` selects exactly the Top-K list
(every MMR score degenerates to the relevance score, and iterated
first-argmax selection coincides with the stable descending sort), so in
particular the selected chunk sets are equal. -/
theorem mmr_lambda_one_matches_top_k (chunks : List Str) (query : Str) (k : Int)
    (h : chunks ≠ []) (hk : 1 ≤ k) :
    mmrSelected chunks query k 1 = topkSelected chunks query k ∧
      (mmrSelected chunks query k 1).toFinset = (topkSelected chunks query k).toFinset := by
  have heq := mmrSelected_one_eq_topk chunks query k h hk
  exact ⟨heq, by rw [heq]⟩

/-- Claim C8 counterexample at `k = 0`: MMR selects its first chunk before
the `k` bound is checked while Top-K selects nothing, so the selected sets
differ on the non-empty chunk list `["a"]`. -/
theorem mmr_lambda_one_k_zero_differs_from_top_k :
    ([['a']] : List Str) ≠ [] ∧
      (mmrSelected [['a']] ['a'] 0 1).toFinset ≠ (topkSelected [['a']] ['a'] 0).toFinset := by
  refine ⟨by decide, by decide⟩

/-- Witness for C8 (amended) at `chunks = ["a", "b"]`, `query = "a"`,
`k = 1`. -/
theorem mmr_lambda_one_matches_top_k_witness :
    ([['a'], ['b']] : List Str) ≠ [] ∧ (1 : Int) ≤ 1 ∧
      (mmrSelected [['a'], ['b']] ['a'] 1 1 = topkSelected [['a'], ['b']] ['a'] 1 ∧
        (mmrSelected [['a'], ['b']] ['a'] 1 1).toFinset =
          (topkSelected [['a'], ['b']] ['a'] 1).toFinset) :=
  ⟨by decide, by decide,
    mmr_lambda_one_matches_top_k [['a'], ['b']] ['a'] 1 (by decide) (by decide)⟩

theorem InfixOf_refl (l : Str) : InfixOf l l := ⟨[], [], by simp⟩

theorem InfixOf_trans (a b c : Str) (h1 : InfixOf a b) (h2 : InfixOf b c) : InfixOf a c := by
  obtain ⟨p1, q1, h1⟩ := h1
  obtain ⟨p2, q2, h2⟩ := h2
  exact ⟨p2 ++ p1, q1 ++ q2, by rw [h2, h1]; simp⟩

theorem InfixOf_drop (n : Nat) (l : Str) : InfixOf (l.drop n) l :=
  ⟨l.take n, [], by simp⟩

theorem InfixOf_take (n : Nat) (l : Str) : InfixOf (l.take n) l :=
  ⟨[], l.drop n, by simp⟩

theorem isPrefixOf_ne_nil (pat x : Str) (hpat : pat ≠ []) (h : pat.isPrefixOf x = true) :
    x ≠ [] := by
  intro hx
  subst hx
  cases pat with
  | nil => exact hpat rfl
  | cons c t => simp [List.isPrefixOf] at h

theorem findSub_some_spec (pat : Str) :
    ∀ l i, findSub pat l = some i →
      pat.isPrefixOf (l.drop i) = true ∧ ∀ j < i, pat.isPrefixOf (l.drop j) = false := by
  intro l
  induction l with
  | nil =>
    intro i h
    simp only [findSub] at h
    by_cases hp : pat.isPrefixOf ([] : Str) = true
    · rw [if_pos hp] at h
      obtain rfl : i = 0 := by simpa using h.symm
      exact ⟨hp, fun j hj => absurd hj (Nat.not_lt_zero j)⟩
    · rw [if_neg hp] at h
      exact absurd h (by simp)
  | cons c rest ih =>
    intro i h
    simp only [findSub] at h
    by_cases hp : pat.isPrefixOf (c :: rest) = true
    · rw [if_pos hp] at h
      obtain rfl : i = 0 := by simpa using h.symm
      exact ⟨hp, fun j hj => absurd hj (Nat.not_lt_zero j)⟩
    · rw [if_neg hp] at h
      cases hfr : findSub pat rest with
      | none => rw [hfr] at h; simp at h
      | some i' =>
        rw [hfr] at h
        obtain rfl : i = i' + 1 := by simpa using h.symm
        obtain ⟨h1, h2⟩ := ih i' hfr
        refine ⟨h1, ?_⟩
        intro j hj
        cases j with
        | zero =>
          simp only [List.drop_zero]
          cases hpc : pat.isPrefixOf (c :: rest) with
          | true => exact absurd hpc hp
          | false => rfl
        | succ j' =>
          rw [List.drop_succ_cons]
          exact h2 j' (by omega)

theorem findSub_none_spec (pat : Str) :
    ∀ l, findSub pat l = none → ∀ j, pat.isPrefixOf (l.drop j) = false := by
  intro l
  induction l with
  | nil =>
    intro h j
    simp only [findSub] at h
    by_cases hp : pat.isPrefixOf ([] : Str) = true
    · rw [if_pos hp] at h; simp at h
    · rw [List.drop_nil]
      cases hpc : pat.isPrefixOf ([] : Str) with
      | true => exact absurd hpc hp
      | false => rfl
  | cons c rest ih =>
    intro h j
    simp only [findSub] at h
    by_cases hp : pat.isPrefixOf (c :: rest) = true
    · rw [if_pos hp] at h; simp at h
    · rw [if_neg hp] at h
      cases j with
      | zero =>
        simp only [List.drop_zero]
        cases hpc : pat.isPrefixOf (c :: rest) with
        | true => exact absurd hpc hp
        | false => rfl
      | succ j' =>
        rw [List.drop_succ_cons]
        cases hfr : findSub pat rest with
        | none => exact ih hfr j'
        | some i' => rw [hfr] at h; simp at h

theorem hasOcc_iff (pat l : Str) :
    hasOcc pat l = true ↔ ∃ j, pat.isPrefixOf (l.drop j) = true := by
  constructor
  · intro h
    rw [hasOcc, Option.isSome_iff_exists] at h
    obtain ⟨i, hi⟩ := h
    exact ⟨i, (findSub_some_spec pat l i hi).1⟩
  · rintro ⟨j, hj⟩
    cases hf : findSub pat l with
    | none => rw [findSub_none_spec pat l hf j] at hj; exact absurd hj (by simp)
    | some i => simp [hasOcc, hf]

theorem hasOcc_mono (pat c l : Str) (hinf : InfixOf c l) (h : hasOcc pat c = true) :
    hasOcc pat l = true := by
  obtain ⟨p, q, rfl⟩ := hinf
  obtain ⟨j, hj⟩ := (hasOcc_iff pat c).mp h
  apply (hasOcc_iff pat (p ++ c ++ q)).mpr
  refine ⟨p.length + j, ?_⟩
  rw [List.append_assoc, List.drop_append j]
  have hpre : pat <+: c.drop j := List.isPrefixOf_iff_prefix.mp hj
  have : pat <+: (c.drop j) ++ (List.drop (j - c.length) q) := by
    exact hpre.trans (List.prefix_append _ _)
  rw [List.isPrefixOf_iff_prefix]
  rw [List.drop_append_eq_append_drop]
  exact this

theorem hasOcc_of_infix_eq_false (pat c l : Str) (hinf : InfixOf c l)
    (h : hasOcc pat l = false) : hasOcc pat c = false := by
  cases hc : hasOcc pat c with
  | false => rfl
  | true => rw [hasOcc_mono pat c l hinf hc] at h; exact absurd h (by simp)

theorem hasOcc_nil_right (pat : Str) (hpat : pat ≠ []) : hasOcc pat [] = false := by
  cases h : hasOcc pat [] with
  | false => rfl
  | true =>
    obtain ⟨j, hj⟩ := (hasOcc_iff pat []).mp h
    rw [List.drop_nil] at hj
    exact absurd rfl (isPrefixOf_ne_nil pat [] hpat hj)

theorem hasOcc_take_findSub (pat : Str) (hpat : pat ≠ []) (l : Str) (i : Nat)
    (hfind : findSub pat l = some i) : hasOcc pat (l.take i) = false := by
  cases h : hasOcc pat (l.take i) with
  | false => rfl
  | true =>
    exfalso
    obtain ⟨j, hj⟩ := (hasOcc_iff pat (l.take i)).mp h
    have hne : (l.take i).drop j ≠ [] := isPrefixOf_ne_nil pat _ hpat hj
    have hjlt : j < (l.take i).length := by
      by_contra hge
      rw [List.drop_eq_nil_of_le (by omega)] at hne
      exact hne rfl
    have hji : j < i := by
      have := List.length_take_le i l
      omega
    have hpre : pat <+: (l.take i).drop j := List.isPrefixOf_iff_prefix.mp hj
    rw [List.drop_take] at hpre
    have hpre2 : pat <+: l.drop j := hpre.trans (List.take_prefix _ _)
    have := (findSub_some_spec pat l i hfind).2 j hji
    rw [List.isPrefixOf_iff_prefix.mpr hpre2] at this
    exact absurd this (by simp)

theorem pySplitGo_pieces (sep : Str) (hsep : sep ≠ []) :
    ∀ fuel l, l.length ≤ fuel →
      ∀ p ∈ pySplitGo sep fuel l, InfixOf p l ∧ hasOcc sep p = false := by
  intro fuel
  induction fuel with
  | zero =>
    intro l hlen p hp
    have : l = [] := List.length_eq_zero.mp (Nat.le_zero.mp hlen)
    subst this
    simp only [pySplitGo, List.mem_singleton] at hp
    subst hp
    exact ⟨InfixOf_refl [], hasOcc_nil_right sep hsep⟩
  | succ fuel ih =>
    intro l hlen p hp
    simp only [pySplitGo] at hp
    cases hf : findSub sep l with
    | none =>
      rw [hf] at hp
      simp only [List.mem_singleton] at hp
      rw [hp]
      refine ⟨InfixOf_refl l, ?_⟩
      simp [hasOcc, hf]
    | some i =>
      rw [hf] at hp
      rcases List.mem_cons.mp hp with hp | hp
      · subst hp
        exact ⟨InfixOf_take i l, hasOcc_take_findSub sep hsep l i hf⟩
      · have hlne : l ≠ [] := by
          intro hnil
          subst hnil
          simp only [findSub] at hf
          rw [if_neg (by simpa using hsep)] at hf
          exact absurd hf (by simp)
        have hlen' : (l.drop (i + sep.length)).length ≤ fuel := by
          have h1 : 0 < l.length := List.length_pos.mpr hlne
          have h2 : 0 < sep.length := List.length_pos.mpr hsep
          simp only [List.length_drop]
          omega
        obtain ⟨hinf, hocc⟩ := ih (l.drop (i + sep.length)) hlen' p hp
        exact ⟨InfixOf_trans p _ l hinf (InfixOf_drop _ l), hocc⟩

theorem pySplit_pieces (sep : Str) (hsep : sep ≠ []) (l : Str) :
    ∀ p ∈ pySplit sep l, InfixOf p l ∧ hasOcc sep p = false := by
  intro p hp
  rw [pySplit, if_neg (by simpa using hsep)] at hp
  exact pySplitGo_pieces sep hsep l.length l (le_refl _) p hp

theorem recSegments_inv (maxCS : Nat) (sep : Str) (P : Str → Prop) :
    ∀ pieces current, (∀ p ∈ pieces, P p) → (current.length ≤ maxCS ∨ P current) →
      ∀ seg ∈ recSegments maxCS sep pieces current, seg.length ≤ maxCS ∨ P seg := by
  intro pieces
  induction pieces with
  | nil =>
    intro current _ hcur seg hseg
    simp only [recSegments] at hseg
    by_cases h : current.isEmpty = true
    · rw [if_pos h] at hseg
      simp at hseg
    · rw [if_neg h] at hseg
      simp only [List.mem_singleton] at hseg
      rw [hseg]
      exact hcur
  | cons piece more ih =>
    intro current hpieces hcur seg hseg
    simp only [recSegments] at hseg
    by_cases hcond :
        (!current.isEmpty && decide (maxCS < current.length + sep.length + piece.length)) = true
    · rw [if_pos hcond] at hseg
      rcases List.mem_cons.mp hseg with hseg | hseg
      · subst hseg; exact hcur
      · exact ih piece (fun p hp => hpieces p (List.mem_cons_of_mem piece hp))
          (Or.inr (hpieces piece (List.mem_cons_self piece more))) seg hseg
    · rw [if_neg hcond] at hseg
      apply ih _ (fun p hp => hpieces p (List.mem_cons_of_mem piece hp)) _ seg hseg
      by_cases hemp : current.isEmpty = true
      · rw [if_pos hemp]
        exact Or.inr (hpieces piece (List.mem_cons_self piece more))
      · rw [if_neg hemp]
        left
        have hle : current.length + sep.length + piece.length ≤ maxCS := by
          have hcf : (!current.isEmpty &&
              decide (maxCS < current.length + sep.length + piece.length)) = false := by
            simpa using hcond
          rcases Bool.and_eq_false_iff.mp hcf with h | h
          · exact absurd (by simpa using h) hemp
          · have := of_decide_eq_false h
            omega
        simp only [List.length_append]
        omega

theorem pyStrip_length_le (l : Str) : (pyStrip l).length ≤ l.length := by
  rw [pyStrip]
  calc ((l.dropWhile pyIsSpace).reverse.dropWhile pyIsSpace).reverse.length
      = ((l.dropWhile pyIsSpace).reverse.dropWhile pyIsSpace).length := by
        rw [List.length_reverse]
    _ ≤ (l.dropWhile pyIsSpace).reverse.length :=
        (List.dropWhile_sublist _).length_le
    _ = (l.dropWhile pyIsSpace).length := by rw [List.length_reverse]
    _ ≤ l.length := (List.dropWhile_sublist _).length_le

theorem recGo_bounded (maxCS : Nat) :
    ∀ fuel seps text c, (∀ s ∈ seps, s ≠ ([] : Str)) → c ∈ recGo maxCS fuel seps text →
      c.length ≤ maxCS ∨ (InfixOf c text ∧ ∀ s ∈ seps, hasOcc s c = false) := by
  intro fuel
  induction fuel with
  | zero => intro seps text c _ hc; simp [recGo] at hc
  | succ fuel ih =>
    intro seps text c hseps hc
    match seps with
    | [] =>
      simp only [recGo] at hc
      by_cases hemp : (pyStrip text).isEmpty = true
      · rw [if_pos hemp] at hc; simp at hc
      · rw [if_neg hemp] at hc
        simp only [List.mem_singleton] at hc
        rw [hc]
        exact Or.inr ⟨InfixOf_refl text, fun s hs => absurd hs (by simp)⟩
    | sep :: rest =>
      simp only [recGo] at hc
      by_cases hlen : text.length ≤ maxCS
      · rw [if_pos hlen] at hc
        by_cases hemp : (pyStrip text).isEmpty = true
        · rw [if_pos hemp] at hc; simp at hc
        · rw [if_neg hemp] at hc
          simp only [List.mem_singleton] at hc
          rw [hc]
          exact Or.inl hlen
      · rw [if_neg hlen] at hc
        obtain ⟨hmem, _⟩ := List.mem_filter.mp hc
        rw [recProcessApply] at hmem
        obtain ⟨seg, hsegmem, hcm⟩ := List.mem_flatMap.mp hmem
        have hsepne : sep ≠ [] := hseps sep (List.mem_cons_self sep rest)
        have hseg := recSegments_inv maxCS sep
          (fun p => InfixOf p text ∧ hasOcc sep p = false)
          (pySplit sep text) [] (pySplit_pieces sep hsepne text) (Or.inl (by simp))
          seg hsegmem
        by_cases hover : maxCS < seg.length
        · rw [if_pos hover] at hcm
          rcases ih rest seg c (fun s hs => hseps s (List.mem_cons_of_mem sep hs)) hcm with
            hcle | ⟨hinfc, hnorest⟩
          · exact Or.inl hcle
          · rcases hseg with hsegle | ⟨hinfseg, hoccseg⟩
            · omega
            · refine Or.inr ⟨InfixOf_trans c seg text hinfc hinfseg, ?_⟩
              intro s hs
              rcases List.mem_cons.mp hs with hs | hs
              · rw [hs]
                exact hasOcc_of_infix_eq_false sep c seg hinfc hoccseg
              · exact hnorest s hs
        · rw [if_neg hover] at hcm
          simp only [List.mem_singleton] at hcm
          rw [hcm]
          left
          have := pyStrip_length_le seg
          omega

/-- Claim C3: every chunk produced by recursive chunking either respects
`max_chunk_size` or is a single atomic piece: it contains no occurrence of
any of the separators `['\n\n', '\n', '. ', ' ']`, so it cannot be split
further and the overflow is unavoidable. -/
theorem recursive_chunk_oversize_is_atomic (text : Str) (maxCS : Nat) (c : Str)
    (hc : c ∈ chunk_recursive text maxCS) :
    c.length ≤ maxCS ∨ ∀ s ∈ recursiveSeparators, hasOcc s c = false := by
  rcases recGo_bounded maxCS (recursiveSeparators.length + 1) recursiveSeparators text c
    (by decide) hc with h | ⟨_, h⟩
  · exact Or.inl h
  · exact Or.inr h

/-- Witness for C3: on the space-free text `"abcd"` with
`max_chunk_size = 2`, the single returned chunk is oversize but contains
no separator. -/
theorem recursive_chunk_oversize_is_atomic_witness :
    (['a', 'b', 'c', 'd'] ∈ chunk_recursive ['a', 'b', 'c', 'd'] 2) ∧
      ((['a', 'b', 'c', 'd'] : Str).length ≤ 2 ∨
        ∀ s ∈ recursiveSeparators, hasOcc s ['a', 'b', 'c', 'd'] = false) :=
  ⟨by decide, recursive_chunk_oversize_is_atomic ['a', 'b', 'c', 'd'] 2 ['a', 'b', 'c', 'd']
    (by decide)⟩

theorem keepChar_of_space (c : Char) (h : pyIsSpace c = true) : keepChar c = false := by
  simp [keepChar, h]

theorem filterKeep_append (a b : Str) : filterKeep (a ++ b) = filterKeep a ++ filterKeep b :=
  List.filter_append a b

theorem filterKeep_eq_nil_of_blank (c : Str) (h : (pyStrip c).isEmpty = true) :
    filterKeep c = [] := by
  rw [List.isEmpty_iff] at h
  rw [pyStrip, List.reverse_eq_nil_iff, List.dropWhile_eq_nil_iff] at h
  apply List.filter_eq_nil_iff.mpr
  intro a ha
  rw [← List.takeWhile_append_dropWhile pyIsSpace c] at ha
  rcases List.mem_append.mp ha with ha | ha
  · simp [keepChar_of_space a (List.mem_takeWhile_imp ha)]
  · have := h a (List.mem_reverse.mpr ha)
    simp [keepChar_of_space a this]

theorem filter_dropWhile_eq (pfilter q : Char → Bool)
    (hq : ∀ c, q c = true → pfilter c = false) :
    ∀ l : Str, (l.dropWhile q).filter pfilter = l.filter pfilter := by
  intro l
  induction l with
  | nil => rfl
  | cons c t ih =>
    by_cases hc : q c = true
    · rw [List.dropWhile_cons, if_pos hc, ih, List.filter_cons, hq c hc]
      simp
    · rw [List.dropWhile_cons, if_neg hc]

theorem filterKeep_pyStrip (l : Str) : filterKeep (pyStrip l) = filterKeep l := by
  have hq : ∀ c, pyIsSpace c = true → keepChar c = false := keepChar_of_space
  rw [pyStrip, filterKeep, List.filter_reverse,
    filter_dropWhile_eq keepChar pyIsSpace hq, ← List.filter_reverse, List.reverse_reverse,
    filter_dropWhile_eq keepChar pyIsSpace hq]
  rfl

theorem filterKeep_flatten_filter (p : Str → Bool)
    (hp : ∀ c, p c = false → filterKeep c = []) :
    ∀ l : List Str, filterKeep (l.filter p).flatten = filterKeep l.flatten := by
  intro l
  induction l with
  | nil => rfl
  | cons c t ih =>
    rw [List.filter_cons]
    by_cases hc : p c = true
    · rw [if_pos hc]
      simp only [List.flatten_cons, filterKeep_append, ih]
    · rw [if_neg hc]
      simp only [List.flatten_cons, filterKeep_append, ih]
      rw [hp c (by simpa using hc)]
      rfl

theorem filterKeep_pyJoin (sep : Str) (hsep : filterKeep sep = []) :
    ∀ parts : List Str, filterKeep (pyJoin sep parts) = filterKeep parts.flatten := by
  intro parts
  induction parts with
  | nil => rfl
  | cons p ps ih =>
    cases ps with
    | nil => simp [pyJoin, filterKeep_append]
    | cons q rest =>
      simp only [pyJoin] at ih ⊢
      rw [filterKeep_append, filterKeep_append, hsep, ih]
      simp [List.flatten_cons, filterKeep_append]

theorem pySplitGo_ne_nil (sep : Str) (fuel : Nat) (l : Str) :
    pySplitGo sep fuel l ≠ [] := by
  cases fuel with
  | zero => simp [pySplitGo]
  | succ fuel =>
    simp only [pySplitGo]
    cases findSub sep l with
    | none => simp
    | some i => simp

theorem pyJoin_pySplitGo (sep : Str) (hsep : sep ≠ []) :
    ∀ fuel l, l.length ≤ fuel → pyJoin sep (pySplitGo sep fuel l) = l := by
  intro fuel
  induction fuel with
  | zero =>
    intro l hlen
    have : l = [] := List.length_eq_zero.mp (Nat.le_zero.mp hlen)
    subst this
    rfl
  | succ fuel ih =>
    intro l hlen
    simp only [pySplitGo]
    cases hf : findSub sep l with
    | none => rfl
    | some i =>
      show pyJoin sep (l.take i :: pySplitGo sep fuel (l.drop (i + sep.length))) = l
      have hlne : l ≠ [] := by
        intro hnil
        subst hnil
        simp only [findSub] at hf
        rw [if_neg (by simpa using hsep)] at hf
        exact absurd hf (by simp)
      have hlen' : (l.drop (i + sep.length)).length ≤ fuel := by
        have h1 : 0 < l.length := List.length_pos.mpr hlne
        have h2 : 0 < sep.length := List.length_pos.mpr hsep
        simp only [List.length_drop]
        omega
      obtain ⟨b, L, hbL⟩ := List.exists_cons_of_ne_nil
        (pySplitGo_ne_nil sep fuel (l.drop (i + sep.length)))
      rw [hbL]
      simp only [pyJoin]
      rw [← hbL]
      have hpre : sep <+: l.drop i :=
        List.isPrefixOf_iff_prefix.mp (findSub_some_spec sep l i hf).1
      obtain ⟨t, ht⟩ := hpre
      have hdt : t = l.drop (i + sep.length) := by
        have := congrArg (List.drop sep.length) ht
        rw [List.drop_left, List.drop_drop] at this
        exact this
      calc l.take i ++ sep ++ pyJoin sep (pySplitGo sep fuel (l.drop (i + sep.length)))
          = l.take i ++ sep ++ l.drop (i + sep.length) := by rw [ih _ hlen']
        _ = l.take i ++ (sep ++ t) := by rw [hdt, List.append_assoc]
        _ = l.take i ++ l.drop i := by rw [ht]
        _ = l := List.take_append_drop i l

theorem pyJoin_pySplit (sep : Str) (hsep : sep ≠ []) (l : Str) :
    pyJoin sep (pySplit sep l) = l := by
  rw [pySplit, if_neg (by simpa using hsep)]
  exact pyJoin_pySplitGo sep hsep l.length l (le_refl _)

theorem recSegments_filterKeep (maxCS : Nat) (sep : Str) (hsep : filterKeep sep = []) :
    ∀ pieces current,
      filterKeep (recSegments maxCS sep pieces current).flatten =
        filterKeep current ++ filterKeep pieces.flatten := by
  intro pieces
  induction pieces with
  | nil =>
    intro current
    simp only [recSegments]
    by_cases h : current.isEmpty = true
    · rw [if_pos h, List.isEmpty_iff.mp h]
      rfl
    · rw [if_neg h]
      simp [filterKeep, filterKeep_append]
  | cons piece more ih =>
    intro current
    simp only [recSegments]
    by_cases hcond :
        (!current.isEmpty && decide (maxCS < current.length + sep.length + piece.length)) = true
    · rw [if_pos hcond]
      simp only [List.flatten_cons, filterKeep_append, ih piece, List.append_assoc]
    · rw [if_neg hcond, ih _]
      by_cases hemp : current.isEmpty = true
      · rw [if_pos hemp, List.isEmpty_iff.mp hemp]
        simp [filterKeep, filterKeep_append, List.flatten_cons]
      · rw [if_neg hemp]
        simp [filterKeep_append, hsep, List.flatten_cons, List.append_assoc]

theorem recProcessApply_filterKeep (recurse : Str → List Str) (maxCS : Nat) :
    ∀ segs : List Str,
      (∀ seg ∈ segs, maxCS < seg.length → filterKeep (recurse seg).flatten = filterKeep seg) →
      filterKeep (recProcessApply recurse maxCS segs).flatten = filterKeep segs.flatten := by
  intro segs
  induction segs with
  | nil => intro _; rfl
  | cons c t ih =>
    intro hrec
    rw [recProcessApply, List.flatMap_cons, List.flatten_append, filterKeep_append,
      show (t.flatMap fun s => if maxCS < s.length then recurse s else [pyStrip s]) =
        recProcessApply recurse maxCS t from rfl,
      ih (fun seg hseg hover => hrec seg (List.mem_cons_of_mem c hseg) hover),
      List.flatten_cons, filterKeep_append]
    congr 1
    by_cases hover : maxCS < c.length
    · rw [if_pos hover]
      exact hrec c (List.mem_cons_self c t) hover
    · rw [if_neg hover]
      simp only [List.flatten_cons, List.flatten_nil, List.append_nil]
      exact filterKeep_pyStrip c

theorem recGo_filterKeep (maxCS : Nat) :
    ∀ fuel seps text, seps.length < fuel →
      (∀ s ∈ seps, filterKeep s = [] ∧ s ≠ ([] : Str)) →
      filterKeep (recGo maxCS fuel seps text).flatten = filterKeep text := by
  intro fuel
  induction fuel with
  | zero => intro seps text h _; omega
  | succ fuel ih =>
    intro seps text hfuel hseps
    match seps with
    | [] =>
      simp only [recGo]
      by_cases hemp : (pyStrip text).isEmpty = true
      · rw [if_pos hemp, filterKeep_eq_nil_of_blank text hemp]
        rfl
      · rw [if_neg hemp]
        simp [filterKeep, filterKeep_append]
    | sep :: rest =>
      simp only [recGo]
      by_cases hlen : text.length ≤ maxCS
      · rw [if_pos hlen]
        by_cases hemp : (pyStrip text).isEmpty = true
        · rw [if_pos hemp, filterKeep_eq_nil_of_blank text hemp]
          rfl
        · rw [if_neg hemp]
          simp [filterKeep, filterKeep_append]
      · rw [if_neg hlen]
        have hsepf : filterKeep sep = [] := (hseps sep (List.mem_cons_self sep rest)).1
        have hsepne : sep ≠ [] := (hseps sep (List.mem_cons_self sep rest)).2
        rw [filterKeep_flatten_filter (fun c => !(pyStrip c).isEmpty) ?hblank]
        case hblank =>
          intro c hc
          apply filterKeep_eq_nil_of_blank
          simpa using hc
        rw [recProcessApply_filterKeep (fun t => recGo maxCS fuel rest t) maxCS
          (recSegments maxCS sep (pySplit sep text) []) ?hrec]
        case hrec =>
          intro seg _ _
          apply ih rest seg ?_ (fun s hs => hseps s (List.mem_cons_of_mem sep hs))
          have h2 := hfuel
          simp only [List.length_cons] at h2
          omega
        rw [recSegments_filterKeep maxCS sep hsepf]
        simp only [filterKeep, List.filter_nil, List.nil_append]
        rw [show List.filter keepChar (pySplit sep text).flatten =
          filterKeep (pySplit sep text).flatten from rfl]
        rw [← filterKeep_pyJoin sep hsepf (pySplit sep text), pyJoin_pySplit sep hsepne text]
        rfl

theorem filterKeep_drop_sublist (n : Nat) (l : Str) :
    (filterKeep (l.drop n)).Sublist (filterKeep l) := by
  conv_rhs => rw [← List.take_append_drop n l]
  rw [filterKeep_append]
  exact List.sublist_append_right _ _

theorem chunkFixedGo_sublist (text : Str) (cs ov : Nat) (hov : ov < cs) :
    ∀ fuel i, text.length - i ≤ fuel →
      (filterKeep (text.drop i)).Sublist
        (filterKeep (chunkFixedGo text cs ov fuel i).flatten) := by
  intro fuel
  induction fuel with
  | zero =>
    intro i hlen
    rw [List.drop_eq_nil_of_le (by omega)]
    exact List.nil_sublist _
  | succ fuel ih =>
    intro i hlen
    simp only [chunkFixedGo]
    by_cases hi : i < text.length
    · rw [if_pos hi, List.flatten_cons, filterKeep_append]
      have hdecomp : text.drop i = (text.drop i).take cs ++ text.drop (i + cs) := by
        conv_lhs => rw [← List.take_append_drop cs (text.drop i)]
        rw [List.drop_drop]
      conv_lhs => rw [hdecomp, filterKeep_append]
      apply List.Sublist.append_left _ (filterKeep ((text.drop i).take cs))
      have hsuffix : text.drop (i + cs) = (text.drop (i + (cs - ov))).drop ov := by
        rw [List.drop_drop]
        congr 1
        omega
      have h1 : (filterKeep (text.drop (i + cs))).Sublist
          (filterKeep (text.drop (i + (cs - ov)))) := by
        rw [hsuffix]
        exact filterKeep_drop_sublist ov _
      exact h1.trans (ih (i + (cs - ov)) (by omega))
    · rw [if_neg hi, List.drop_eq_nil_of_le (by omega)]
      exact List.nil_sublist _

theorem chunk_fixed_size_covers (text : Str) (cs ov : Nat) (hov : ov < cs) :
    (filterKeep text).Sublist (filterKeep (chunk_fixed_size text cs ov).flatten) := by
  rw [chunk_fixed_size]
  rw [filterKeep_flatten_filter (fun c => !(pyStrip c).isEmpty) ?hblank]
  case hblank =>
    intro c hc
    apply filterKeep_eq_nil_of_blank
    simpa using hc
  have h := chunkFixedGo_sublist text cs ov hov (text.length + 1) 0 (by omega)
  rw [List.drop_zero] at h
  exact h

theorem tryHashes_pos (rest : Str) : ∀ j L, tryHashes rest j = some L → 1 ≤ L := by
  intro j
  induction j with
  | zero => intro L h; simp [tryHashes] at h
  | succ j ih =>
    intro L h
    simp only [tryHashes] at h
    cases htw : tryWsLen (rest.drop (j + 1))
        ((rest.drop (j + 1)).takeWhile pyIsSpace).length with
    | none => rw [htw] at h; exact ih L h
    | some m =>
      rw [htw] at h
      obtain rfl : L = 1 + (j + 1) + m := by simpa using h.symm
      omega

theorem headerMatchLen_pos (l : Str) (L : Nat) (h : headerMatchLen l = some L) : 1 ≤ L := by
  unfold headerMatchLen at h
  split at h
  · exact tryHashes_pos _ _ L h
  · exact absurd h (by simp)

theorem findHeader_pos (l : Str) : ∀ i L, findHeader l = some (i, L) → 1 ≤ L := by
  induction l with
  | nil => intro i L h; simp [findHeader] at h
  | cons c rest ih =>
    intro i L h
    simp only [findHeader] at h
    cases hm : headerMatchLen (c :: rest) with
    | some L' =>
      rw [hm] at h
      obtain ⟨rfl, rfl⟩ : i = 0 ∧ L = L' := by
        simpa using h.symm
      exact headerMatchLen_pos _ _ hm
    | none =>
      rw [hm] at h
      cases hf : findHeader rest with
      | none => rw [hf] at h; simp at h
      | some p =>
        rw [hf] at h
        obtain ⟨rfl, rfl⟩ : i = p.1 + 1 ∧ L = p.2 := by
          simpa using h.symm
        exact ih p.1 p.2 (by rw [hf])

theorem findHeader_nil_none : findHeader ([] : Str) = none := rfl

theorem splitHeadersGo_flatten : ∀ fuel l, l.length ≤ fuel →
    (splitHeadersGo fuel l).flatten = l := by
  intro fuel
  induction fuel with
  | zero =>
    intro l hlen
    have : l = [] := List.length_eq_zero.mp (Nat.le_zero.mp hlen)
    subst this
    rfl
  | succ fuel ih =>
    intro l hlen
    simp only [splitHeadersGo]
    cases hf : findHeader l with
    | none => simp
    | some p =>
      obtain ⟨i, L⟩ := p
      have hL : 1 ≤ L := findHeader_pos l i L hf
      have hlne : l ≠ [] := by
        intro hnil
        subst hnil
        rw [findHeader_nil_none] at hf
        exact absurd hf (by simp)
      have hlen' : (l.drop (i + L)).length ≤ fuel := by
        have : 0 < l.length := List.length_pos.mpr hlne
        simp only [List.length_drop]
        omega
      simp only [List.flatten_cons]
      rw [ih _ hlen']
      calc l.take i ++ ((l.drop i).take L ++ l.drop (i + L))
          = l.take i ++ ((l.drop i).take L ++ (l.drop i).drop L) := by
            rw [List.drop_drop]
        _ = l.take i ++ l.drop i := by rw [List.take_append_drop]
        _ = l := List.take_append_drop i l

theorem splitHeaders_flatten (l : Str) : (splitHeaders l).flatten = l :=
  splitHeadersGo_flatten l.length l (le_refl _)

theorem filterKeep_nil : filterKeep [] = [] := rfl

theorem headerGroup_filterKeep :
    ∀ parts current, filterKeep (headerGroup parts current).flatten =
      filterKeep current ++ filterKeep parts.flatten := by
  intro parts
  induction parts with
  | nil =>
    intro current
    simp only [headerGroup]
    by_cases h : current.isEmpty = true
    · rw [if_pos h, List.isEmpty_iff.mp h]
      rfl
    · rw [if_neg h]
      simp only [List.flatten_cons, List.flatten_nil, filterKeep_nil, List.append_nil,
        filterKeep_pyStrip]
  | cons part more ih =>
    intro current
    simp only [headerGroup]
    by_cases hp : (headerMatchLen part).isSome = true
    · rw [if_pos hp]
      rw [List.flatten_append, filterKeep_append, ih part]
      by_cases h : current.isEmpty = true
      · rw [if_pos h, List.isEmpty_iff.mp h]
        simp [filterKeep, filterKeep_append, List.flatten_cons]
      · rw [if_neg h]
        simp [filterKeep_append, filterKeep_pyStrip, List.flatten_cons, List.append_assoc]
    · rw [if_neg hp, ih (current ++ part)]
      simp [filterKeep_append, List.flatten_cons, List.append_assoc]

theorem filterKeep_flatten_map_strip (l : List Str) :
    filterKeep (l.map pyStrip).flatten = filterKeep l.flatten := by
  induction l with
  | nil => rfl
  | cons c t ih =>
    simp only [List.map_cons, List.flatten_cons, filterKeep_append, ih, filterKeep_pyStrip]

theorem chunk_document_based_filterKeep (text delim : Str) (hd : filterKeep delim = [])
    (hdne : delim ≠ []) :
    filterKeep (chunk_document_based text delim).flatten = filterKeep text := by
  have hremoved : ∀ c : Str, (!c.isEmpty) = false → filterKeep c = [] := by
    intro c hc
    have : c = [] := List.isEmpty_iff.mp (by simpa using hc)
    rw [this]
    rfl
  rw [chunk_document_based]
  by_cases hin : (findSub delim text).isSome = true
  · rw [if_pos hin]
    rw [filterKeep_flatten_filter (fun c => !c.isEmpty) hremoved]
    rw [filterKeep_flatten_map_strip]
    rw [← filterKeep_pyJoin delim hd, pyJoin_pySplit delim hdne]
  · rw [if_neg hin]
    by_cases hh : (findHeader text).isSome = true
    · rw [if_pos hh]
      rw [filterKeep_flatten_filter (fun c => !c.isEmpty) hremoved]
      rw [headerGroup_filterKeep, splitHeaders_flatten]
      rfl
    · rw [if_neg hh]
      rw [filterKeep_flatten_filter (fun c => !c.isEmpty) hremoved]
      rw [filterKeep_flatten_map_strip]
      rw [← filterKeep_pyJoin ['\n', '\n'] (by decide), pyJoin_pySplit ['\n', '\n'] (by decide)]

/-- Claim C4: for every document text and every strategy name, no
character of the input other than separator characters (whitespace, the
`'.'` of the sentence separator, the `'-'` of the document delimiter) is
lost by chunking: the input filtered down to its non-separator content is
a subsequence of the concatenated chunks filtered the same way. For the
recursive, document-based and placeholder strategies the filtered content
is preserved exactly; fixed-size windows additionally duplicate
overlapped characters, hence the subsequence statement. -/
theorem chunking_no_character_loss (text strategy : Str) :
    (filterKeep text).Sublist (filterKeep (chunk_document text strategy).flatten) := by
  rw [chunk_document]
  by_cases h1 : strategy = sFixed
  · rw [if_pos h1]
    exact chunk_fixed_size_covers text 1000 200 (by omega)
  · rw [if_neg h1]
    by_cases h2 : strategy = sRecursive
    · rw [if_pos h2]
      have heq : filterKeep (chunk_recursive text 1000).flatten = filterKeep text :=
        recGo_filterKeep 1000 (recursiveSeparators.length + 1) recursiveSeparators text
          (by decide) (by decide)
      rw [heq]
    · rw [if_neg h2]
      by_cases h3 : strategy = sDocument
      · rw [if_pos h3]
        rw [chunk_document_based_filterKeep text docDelimiter (by decide) (by decide)]
      · rw [if_neg h3]
        by_cases h4 : strategy = sSemantic
        · rw [if_pos h4]
          simp
        · rw [if_neg h4]
          by_cases h5 : strategy = sAgentic
          · rw [if_pos h5]
            simp
          · rw [if_neg h5]
            simp
